import Mathlib

/-!
Verification of the caching layer and retrieval pipeline of `proj2_nps.py`.

The program memoizes remote fetches in a single JSON file.  We embed:

* a JSON value type `JVal` together with a serializer `dumps` (modelling
  Python's `json.dumps` with its default `", "` / `": "` separators) and a
  parser `loads` (modelling `json.loads`);
* the cache store as an insertion-ordered association list `JMembers`
  (modelling a Python `dict` with string keys);
* the backing cache file as a `FileState` (absent/unreadable, or holding a
  string);
* the program's functions `open_cache`, `save_cache`,
  `make_request_with_cache`, `get_url_with_cache`, `get_nearby_with_cache`,
  `get_site_instance`, `get_sites_for_state` and `build_state_url_dict`,
  with the network (`requests.get`), the geolocation API and the
  HTML-extraction steps (BeautifulSoup selections, excluded collaborators
  per the design) supplied as oracle parameters.

Model boundaries: `dumps` escapes the common control characters
(`\x5c`, quote, newline, tab, carriage return) and prints integers; the
`\uXXXX` escape form and floating-point numbers are outside the model.
-/

mutual

/-- JSON values, mutually with the element list of an array and the
member list of an object.  An object's members are kept in insertion
order, as Python dicts do. -/
inductive JVal : Type where
  | jnull : JVal
  | jbool (b : Bool) : JVal
  | jnum (i : Int) : JVal
  | jstr (s : String) : JVal
  | jarr (xs : JElems) : JVal
  | jobj (ms : JMembers) : JVal

inductive JElems : Type where
  | nil : JElems
  | cons (v : JVal) (rest : JElems) : JElems

inductive JMembers : Type where
  | nil : JMembers
  | cons (k : String) (v : JVal) (rest : JMembers) : JMembers

end

/-- The decimal digit character for `d < 10`. -/
def digitChar (d : Nat) : Char :=
  "0123456789".toList.getD d '0'

/-- Numeric value of a digit character. -/
def digitVal (c : Char) : Nat :=
  c.toNat - 48

/-- Fuel-driven decimal printing of a natural number (most significant
digit first); the fuel only serves to make the recursion structural. -/
def natToDigitsAux : Nat → Nat → List Char
  | 0, _ => []
  | fuel + 1, n =>
    if n < 10 then [digitChar n]
    else natToDigitsAux fuel (n / 10) ++ [digitChar (n % 10)]

/-- Decimal digits of `n`, as Python prints a nonnegative `int`. -/
def natToDigits (n : Nat) : List Char :=
  natToDigitsAux (n + 1) n

/-- JSON string escaping of one character (the escapes `json.dumps`
emits for the characters in the model). -/
def escChar (c : Char) : List Char :=
  if c = '\\' then ['\\', '\\']
  else if c = '"' then ['\\', '"']
  else if c = '\n' then ['\\', 'n']
  else if c = '\t' then ['\\', 't']
  else if c = '\r' then ['\\', 'r']
  else [c]

/-- The printed form of a JSON string: quote, escaped body, quote. -/
def printStr (s : String) : List Char :=
  '"' :: (s.toList.flatMap escChar) ++ ['"']

/-- The printed form of a JSON integer (`-` sign and decimal digits). -/
def printInt (i : Int) : List Char :=
  if i < 0 then '-' :: natToDigits i.natAbs else natToDigits i.natAbs

mutual

/-- Printing of a JSON value, as `json.dumps` with default separators
`", "` and `": "`. -/
def printVal : JVal → List Char
  | .jnull => ['n', 'u', 'l', 'l']
  | .jbool true => ['t', 'r', 'u', 'e']
  | .jbool false => ['f', 'a', 'l', 's', 'e']
  | .jnum i => printInt i
  | .jstr s => printStr s
  | .jarr .nil => ['[', ']']
  | .jarr (.cons x xs) => '[' :: printVal x ++ printElemsRest xs ++ [']']
  | .jobj .nil => ['{', '}']
  | .jobj (.cons k v ms) =>
    '{' :: (printStr k ++ ':' :: ' ' :: printVal v) ++ printMembersRest ms ++ ['}']
termination_by structural v => v

/-- Printing of the second and later elements of an array. -/
def printElemsRest : JElems → List Char
  | .nil => []
  | .cons x xs => ',' :: ' ' :: printVal x ++ printElemsRest xs
termination_by structural x => x

/-- Printing of the second and later members of an object. -/
def printMembersRest : JMembers → List Char
  | .nil => []
  | .cons k v ms =>
    ',' :: ' ' :: (printStr k ++ ':' :: ' ' :: printVal v) ++ printMembersRest ms
termination_by structural m => m

end

/-- `json.dumps`. -/
def dumps (v : JVal) : String :=
  String.mk (printVal v)

/-- JSON insignificant whitespace. -/
def isWsChar (c : Char) : Bool :=
  c = ' ' || c = '\n' || c = '\t' || c = '\r'

/-- Skip insignificant whitespace. -/
def skipWs (cs : List Char) : List Char :=
  cs.dropWhile isWsChar

/-- Inverse of `escChar` on the escape letter. -/
def unescChar (e : Char) : Option Char :=
  if e = '\\' then some '\\'
  else if e = '"' then some '"'
  else if e = '/' then some '/'
  else if e = 'n' then some '\n'
  else if e = 't' then some '\t'
  else if e = 'r' then some '\r'
  else if e = 'b' then some (Char.ofNat 8)
  else if e = 'f' then some (Char.ofNat 12)
  else none

/-- Parse the body of a JSON string after the opening quote, with an
accumulator of the characters read so far (in reverse). -/
def parseStrAux : List Char → List Char → Option (String × List Char)
  | [], _ => none
  | c :: rest, acc =>
    if c = '"' then some (String.mk acc.reverse, rest)
    else if c = '\\' then
      match rest with
      | [] => none
      | e :: rest2 =>
        match unescChar e with
        | some c2 => parseStrAux rest2 (c2 :: acc)
        | none => none
    else parseStrAux rest (c :: acc)

/-- Numeric value of a nonempty digit string (most significant first). -/
def digitsToNat (ds : List Char) : Nat :=
  ds.foldl (fun a c => a * 10 + digitVal c) 0

/-- Parse a maximal nonempty run of decimal digits. -/
def parseDigits (cs : List Char) : Option (Nat × List Char) :=
  match cs.takeWhile Char.isDigit with
  | [] => none
  | ds => some (digitsToNat ds, cs.dropWhile Char.isDigit)

mutual

/-- Recursive-descent parse of one JSON value; the fuel only serves to
make the recursion structural and is irrelevant when large enough. -/
def parseVal : Nat → List Char → Option (JVal × List Char)
  | 0, _ => none
  | fuel + 1, cs =>
    match cs with
    | [] => none
    | c :: rest =>
      if c = 'n' then
        match rest with
        | 'u' :: 'l' :: 'l' :: rest2 => some (.jnull, rest2)
        | _ => none
      else if c = 't' then
        match rest with
        | 'r' :: 'u' :: 'e' :: rest2 => some (.jbool true, rest2)
        | _ => none
      else if c = 'f' then
        match rest with
        | 'a' :: 'l' :: 's' :: 'e' :: rest2 => some (.jbool false, rest2)
        | _ => none
      else if c = '"' then
        match parseStrAux rest [] with
        | some (s, rest2) => some (.jstr s, rest2)
        | none => none
      else if c = '[' then
        match skipWs rest with
        | [] => none
        | c1 :: rest1 =>
          if c1 = ']' then some (.jarr .nil, rest1)
          else
            match parseVal fuel (c1 :: rest1) with
            | some (v, rest2) =>
              match parseElemsRest fuel (skipWs rest2) with
              | some (vs, rest3) => some (.jarr (.cons v vs), rest3)
              | none => none
            | none => none
      else if c = '{' then
        match skipWs rest with
        | [] => none
        | c1 :: rest1 =>
          if c1 = '}' then some (.jobj .nil, rest1)
          else
            match parseMember fuel (c1 :: rest1) with
            | some (k, v, rest2) =>
              match parseMembersRest fuel (skipWs rest2) with
              | some (ms, rest3) => some (.jobj (.cons k v ms), rest3)
              | none => none
            | none => none
      else if c = '-' then
        match parseDigits rest with
        | some (n, rest2) => some (.jnum (-(n : Int)), rest2)
        | none => none
      else if c.isDigit then
        match parseDigits (c :: rest) with
        | some (n, rest2) => some (.jnum (n : Int), rest2)
        | none => none
      else none

/-- Parse one `"key": value` member of an object. -/
def parseMember : Nat → List Char → Option (String × JVal × List Char)
  | 0, _ => none
  | fuel + 1, cs =>
    match cs with
    | [] => none
    | c :: rest =>
      if c = '"' then
        match parseStrAux rest [] with
        | some (k, rest2) =>
          match skipWs rest2 with
          | [] => none
          | c1 :: rest3 =>
            if c1 = ':' then
              match parseVal fuel (skipWs rest3) with
              | some (v, rest4) => some (k, v, rest4)
              | none => none
            else none
        | none => none
      else none

/-- Parse the rest of an array after its first element: either `]`, or a
comma followed by an element and recursively the rest. -/
def parseElemsRest : Nat → List Char → Option (JElems × List Char)
  | 0, _ => none
  | fuel + 1, cs =>
    match cs with
    | [] => none
    | c :: rest =>
      if c = ']' then some (.nil, rest)
      else if c = ',' then
        match parseVal fuel (skipWs rest) with
        | some (v, rest2) =>
          match parseElemsRest fuel (skipWs rest2) with
          | some (vs, rest3) => some (.cons v vs, rest3)
          | none => none
        | none => none
      else none

/-- Parse the rest of an object after its first member. -/
def parseMembersRest : Nat → List Char → Option (JMembers × List Char)
  | 0, _ => none
  | fuel + 1, cs =>
    match cs with
    | [] => none
    | c :: rest =>
      if c = '}' then some (.nil, rest)
      else if c = ',' then
        match parseMember fuel (skipWs rest) with
        | some (k, v, rest2) =>
          match parseMembersRest fuel (skipWs rest2) with
          | some (ms, rest3) => some (.cons k v ms, rest3)
          | none => none
        | none => none
      else none

end

/-- `json.loads`: parse a complete JSON document, allowing surrounding
whitespace; `none` models a raised `JSONDecodeError`. -/
def loads (s : String) : Option JVal :=
  match parseVal (s.toList.length + 1) (skipWs s.toList) with
  | some (v, rest) => if skipWs rest = [] then some v else none
  | none => none

/-! ## The cache store and the program's functions -/

/-- Lookup in the cache store: `CACHE_DICT[key]` / `key in CACHE_DICT`. -/
def lookupStore : JMembers → String → Option JVal
  | .nil, _ => none
  | .cons k v rest, key => if k = key then some v else lookupStore rest key

/-- Assignment `CACHE_DICT[key] = val` on a Python dict: update in place
when the key is present, append otherwise. -/
def insertStore : JMembers → String → JVal → JMembers
  | .nil, key, val => .cons key val .nil
  | .cons k v rest, key, val =>
    if k = key then .cons key val rest else .cons k v (insertStore rest key val)

/-- Lookup `d[k]` in a Python dict of strings (the states dictionary). -/
def lookupAssoc : List (String × String) → String → Option String
  | [], _ => none
  | (k, v) :: rest, key => if k = key then some v else lookupAssoc rest key

/-- Assignment `d[k] = v` on a Python dict of strings. -/
def insertAssoc : List (String × String) → String → String → List (String × String)
  | [], key, val => [(key, val)]
  | (k, v) :: rest, key, val =>
    if k = key then (key, val) :: rest else (k, v) :: insertAssoc rest key val

/-- The state of the backing cache file `new_cache.json`: `absent` covers
a missing or unreadable file (`open`/`read` raises), `content s` a
readable file holding the string `s`. -/
inductive FileState : Type where
  | absent : FileState
  | content (s : String) : FileState

/-- `open_cache`: read and parse the backing file, returning the empty
dict on any failure (the bare `except` catches every exception).  A file
whose JSON is not an object is outside the store type and is modelled as
the empty store (the program only ever saves objects). -/
def open_cache : FileState → JMembers
  | .absent => .nil
  | .content s =>
    match loads s with
    | some (.jobj ms) => ms
    | _ => .nil

/-- `save_cache`: serialize the whole store and overwrite the backing
file with it. -/
def save_cache (cache_dict : JMembers) : FileState :=
  .content (dumps (.jobj cache_dict))

/-- The network oracle: `requests.get(url).text`, which may raise. -/
abbrev Net := String → Except Unit String

/-- `make_request_with_cache url`: re-open the cache file; on a hit
return the cached value; on a miss fetch the page text, store it under
the URL, save the whole store and return it.  The result carries the new
file state and whether a network request was performed. -/
def make_request_with_cache (net : Net) (file : FileState) (url : String) :
    Except Unit JVal × FileState × Bool :=
  match lookupStore (open_cache file) url with
  | some v => (.ok v, file, false)
  | none =>
    match net url with
    | .ok text =>
      (.ok (.jstr text),
       save_cache (insertStore (open_cache file) url (.jstr text)), true)
    | .error e => (.error e, file, true)

/-- Python `str.capitalize()`: first character upper-cased, the rest
lower-cased. -/
def pyCapitalize (s : String) : String :=
  match s.toList with
  | [] => ""
  | c :: rest => String.mk (c.toUpper :: rest.map Char.toLower)

/-- `get_url_with_cache states_dict state`: re-open the cache file; on a
hit for the key `state.capitalize()` return the cached value; on a miss
evaluate `states_dict[state]` (with the state name verbatim — a `KeyError`,
modelled as `.error`, when absent), store it under the capitalized key,
save and return it. -/
def get_url_with_cache (states_dict : List (String × String)) (file : FileState)
    (state : String) : Except Unit JVal × FileState :=
  match lookupStore (open_cache file) (pyCapitalize state) with
  | some v => (.ok v, file)
  | none =>
    match lookupAssoc states_dict state with
    | some state_url =>
      (.ok (.jstr state_url),
       save_cache (insertStore (open_cache file) (pyCapitalize state)
         (.jstr state_url)))
    | none => (.error (), file)

/-- A national site record (class `NationalSite`). -/
structure NationalSite where
  category : String
  name : String
  address : String
  zipcode : String
  phone : String

/-- The geolocation API oracle: `get_nearby_places` builds the MapQuest
request from the site (key, origin = zipcode, radius 10, maxMatches 10)
and decodes the JSON response; the call may raise. -/
abbrev Api := NationalSite → Except Unit JVal

/-- `get_nearby_with_cache site`: re-open the cache file; on a hit for
the key `site.name` return the cached value; on a miss call the API,
store the decoded response under `site.name`, save and return it. -/
def get_nearby_with_cache (api : Api) (file : FileState) (site : NationalSite) :
    Except Unit JVal × FileState × Bool :=
  match lookupStore (open_cache file) site.name with
  | some v => (.ok v, file, false)
  | none =>
    match api site with
    | .ok nearby =>
      (.ok nearby, save_cache (insertStore (open_cache file) site.name nearby),
       true)
    | .error e => (.error e, file, true)

/-- `https://www.nps.gov`, the base URL prefixed to relative links. -/
def baseurl : String := "https://www.nps.gov"

/-- The top-level catalog page URL. -/
def parturl : String := "https://www.nps.gov/index.htm"

/-- The HTML-extraction oracle of `get_site_instance`: from the site
page text, the hero/footer fields assembled into a `NationalSite`
(BeautifulSoup selection is an excluded collaborator). -/
abbrev ExtractSite := String → NationalSite

/-- The HTML-extraction oracle of `get_sites_for_state`: from the state
page text, the park links `park.find("a")["href"]` of the
`list_parks` section, in document order. -/
abbrev ExtractParks := String → List String

/-- The HTML-extraction oracle of `build_state_url_dict`: from the index
page text, the `(link text, href)` pairs of the state dropdown, in
document order. -/
abbrev ExtractStates := String → List (String × String)

/-- `get_site_instance site_url`: fetch the page text through
`make_request_with_cache` and extract a `NationalSite` from it.  The
last component lists the URLs fetched over the network (empty on a cache
hit).  A cached value that is not a string makes the extraction step
fail, as BeautifulSoup would on a non-text value. -/
def get_site_instance (extract : ExtractSite) (net : Net) (file : FileState)
    (site_url : String) : Except Unit NationalSite × FileState × List String :=
  match make_request_with_cache net file site_url with
  | (.ok (.jstr text), file2, fetched) =>
    (.ok (extract text), file2, if fetched then [site_url] else [])
  | (.ok _, file2, fetched) => (.error (), file2, if fetched then [site_url] else [])
  | (.error e, file2, fetched) => (.error e, file2, if fetched then [site_url] else [])

/-- The `for park in park_list` loop of `get_sites_for_state`: build a
site instance for each park link, threading the cache file and
collecting the URLs fetched over the network; an exception aborts the
loop. -/
def sites_loop (extract : ExtractSite) (net : Net) :
    List String → FileState → Except Unit (List NationalSite) × FileState × List String
  | [], file => (.ok [], file, [])
  | href :: rest, file =>
    match get_site_instance extract net file (baseurl ++ href) with
    | (.ok site, file2, us) =>
      match sites_loop extract net rest file2 with
      | (.ok sites, file3, us2) => (.ok (site :: sites), file3, us ++ us2)
      | (.error e, file3, us2) => (.error e, file3, us ++ us2)
    | (.error e, file2, us) => (.error e, file2, us)

/-- `get_sites_for_state state_url`: fetch the state page with a direct
`requests.get(state_url).text.strip()` — not through the cache — then
build a site instance per park link. -/
def get_sites_for_state (extract : ExtractSite) (parks : ExtractParks) (net : Net)
    (file : FileState) (state_url : String) :
    Except Unit (List NationalSite) × FileState × List String :=
  match net state_url with
  | .error e => (.error e, file, [state_url])
  | .ok text =>
    match sites_loop extract net (parks text.trim) file with
    | (res, file2, us) => (res, file2, state_url :: us)

/-- `build_state_url_dict`: fetch the index page through
`make_request_with_cache` and build the dict mapping each lower-cased,
stripped state name to `baseurl` plus its href. -/
def build_state_url_dict (states : ExtractStates) (net : Net) (file : FileState) :
    Except Unit (List (String × String)) × FileState × List String :=
  match make_request_with_cache net file parturl with
  | (.ok (.jstr text), file2, fetched) =>
    (.ok ((states text).foldl
        (fun acc p => insertAssoc acc (p.1.toLower.trim) (baseurl ++ p.2)) []),
     file2, if fetched then [parturl] else [])
  | (.ok _, file2, fetched) => (.error (), file2, if fetched then [parturl] else [])
  | (.error e, file2, fetched) => (.error e, file2, if fetched then [parturl] else [])

/-- The head of `cs`, if any, fails the test `p`. -/
def headNot (p : Char → Bool) (cs : List Char) : Prop :=
  ∀ c, cs.head? = some c → p c = false

/-- The keys of the store are pairwise distinct, as they are in a Python
dict. -/
def keysDistinct : JMembers → Prop
  | .nil => True
  | .cons k _ rest => lookupStore rest k = none ∧ keysDistinct rest

/-- Every value in the cache file's store is a JSON string (true of every
store the document fetcher itself writes). -/
def wfStrings (file : FileState) : Prop :=
  ∀ u v, lookupStore (open_cache file) u = some v → ∃ t, v = .jstr t

/-- The page text `make_request_with_cache` yields for `u` against the
cache `file` when the network deterministically serves `textFn`: the
cached text on a hit, the fresh text on a miss. -/
def textAt (textFn : String → String) (file : FileState) (u : String) : String :=
  match lookupStore (open_cache file) u with
  | some (.jstr t) => t
  | some _ => ""
  | none => textFn u

/-- A network that always answers, serving `textFn u` for `u`. -/
def okNet (textFn : String → String) : Net :=
  fun u => .ok (textFn u)

/-! ## Digit and character lemmas -/

theorem digitChar_isDigit : ∀ d, d < 10 → (digitChar d).isDigit = true := by
  decide

theorem digitVal_digitChar : ∀ d, d < 10 → digitVal (digitChar d) = d := by
  decide

theorem ne_of_isDigit {c x : Char} (h : c.isDigit = true)
    (hx : x.isDigit = false) : c ≠ x := by
  rintro rfl
  rw [h] at hx
  cases hx

theorem isWsChar_false_of_isDigit {c : Char} (h : c.isDigit = true) :
    isWsChar c = false := by
  have h1 : c ≠ ' ' := ne_of_isDigit h (by decide)
  have h2 : c ≠ '\n' := ne_of_isDigit h (by decide)
  have h3 : c ≠ '\t' := ne_of_isDigit h (by decide)
  have h4 : c ≠ '\r' := ne_of_isDigit h (by decide)
  simp [isWsChar, h1, h2, h3, h4]

/-! ## Decimal printing round trip -/

theorem natToDigitsAux_irrel :
    ∀ f1 f2 n, n < f1 → n < f2 → natToDigitsAux f1 n = natToDigitsAux f2 n := by
  intro f1
  induction f1 with
  | zero => omega
  | succ f1 ih =>
    intro f2 n h1 h2
    match f2 with
    | 0 => omega
    | f2 + 1 =>
      by_cases h10 : n < 10
      · simp [natToDigitsAux, h10]
      · have hn : 0 < n := by omega
        have hd : n / 10 < n := Nat.div_lt_self hn (by omega)
        simp only [natToDigitsAux, h10, if_false]
        rw [ih f2 (n / 10) (by omega) (by omega)]

theorem natToDigits_lt (n : Nat) (h : n < 10) : natToDigits n = [digitChar n] := by
  simp [natToDigits, natToDigitsAux, h]

theorem natToDigits_ge (n : Nat) (h : 10 ≤ n) :
    natToDigits n = natToDigits (n / 10) ++ [digitChar (n % 10)] := by
  have hd : n / 10 < n := Nat.div_lt_self (by omega) (by omega)
  have step : natToDigitsAux (n + 1) n =
      if n < 10 then [digitChar n]
      else natToDigitsAux n (n / 10) ++ [digitChar (n % 10)] := rfl
  rw [natToDigits, step, if_neg (Nat.not_lt.mpr h), natToDigits,
    natToDigitsAux_irrel n (n / 10 + 1) (n / 10) (by omega) (by omega)]

theorem natToDigits_ne_nil (n : Nat) : natToDigits n ≠ [] := by
  by_cases h : n < 10
  · simp [natToDigits_lt n h]
  · simp [natToDigits_ge n (by omega)]

theorem natToDigits_all_digits (n : Nat) :
    ∀ c ∈ natToDigits n, c.isDigit = true := by
  induction n using Nat.strong_induction_on with
  | _ n ih =>
    by_cases h : n < 10
    · rw [natToDigits_lt n h]
      intro c hc
      rw [List.mem_singleton] at hc
      subst hc
      exact digitChar_isDigit n h
    · rw [natToDigits_ge n (by omega)]
      intro c hc
      rw [List.mem_append] at hc
      rcases hc with hc | hc
      · exact ih (n / 10) (Nat.div_lt_self (by omega) (by omega)) c hc
      · rw [List.mem_singleton] at hc
        subst hc
        exact digitChar_isDigit (n % 10) (Nat.mod_lt n (by omega))

theorem digitsToNat_natToDigits (n : Nat) : digitsToNat (natToDigits n) = n := by
  induction n using Nat.strong_induction_on with
  | _ n ih =>
    by_cases h : n < 10
    · rw [natToDigits_lt n h]
      simp [digitsToNat, digitVal_digitChar n h]
    · rw [natToDigits_ge n (by omega)]
      have hd : n / 10 < n := Nat.div_lt_self (by omega) (by omega)
      simp only [digitsToNat, List.foldl_append, List.foldl_cons, List.foldl_nil]
      have := ih (n / 10) hd
      simp only [digitsToNat] at this
      rw [this, digitVal_digitChar (n % 10) (Nat.mod_lt n (by omega))]
      omega

/-! ## takeWhile / dropWhile on a run of digits -/

theorem takeWhile_append_sat {p : Char → Bool} :
    ∀ (xs rest : List Char), (∀ c ∈ xs, p c = true) → headNot p rest →
      (xs ++ rest).takeWhile p = xs ∧ (xs ++ rest).dropWhile p = rest := by
  intro xs
  induction xs with
  | nil =>
    intro rest _ hrest
    match rest with
    | [] => simp
    | r :: t =>
      have := hrest r rfl
      simp [List.takeWhile, List.dropWhile, this]
  | cons x xs ih =>
    intro rest hall hrest
    have hx : p x = true := hall x (List.mem_cons_self x xs)
    have := ih rest (fun c hc => hall c (List.mem_cons_of_mem x hc)) hrest
    simp [List.takeWhile, List.dropWhile, hx, this.1, this.2]

theorem parseDigits_print (n : Nat) (rest : List Char)
    (hrest : headNot Char.isDigit rest) :
    parseDigits (natToDigits n ++ rest) = some (n, rest) := by
  have h := takeWhile_append_sat (natToDigits n) rest (natToDigits_all_digits n) hrest
  have hne := natToDigits_ne_nil n
  simp only [parseDigits, h.1, h.2]
  match hd : natToDigits n with
  | [] => exact absurd hd hne
  | d :: ds =>
    rw [← hd, digitsToNat_natToDigits n]

/-! ## Whitespace skipping -/

theorem skipWs_cons_not {c : Char} (t : List Char) (h : isWsChar c = false) :
    skipWs (c :: t) = c :: t := by
  simp [skipWs, List.dropWhile, h]

theorem skipWs_space (t : List Char) : skipWs (' ' :: t) = skipWs t := by
  simp [skipWs, List.dropWhile]
  rfl

theorem skipWs_headNot (cs : List Char) (h : headNot isWsChar cs) :
    skipWs cs = cs := by
  match cs with
  | [] => rfl
  | c :: t => exact skipWs_cons_not t (h c rfl)

/-! ## String escaping round trip -/

theorem stringMk_toList (s : String) : String.mk s.toList = s := by
  cases s
  rfl

theorem parseStrAux_quote (t acc : List Char) :
    parseStrAux ('"' :: t) acc = some (String.mk acc.reverse, t) := by
  rw [parseStrAux.eq_def]
  simp

theorem parseStrAux_esc {e c2 : Char} (t acc : List Char)
    (h : unescChar e = some c2) :
    parseStrAux ('\\' :: e :: t) acc = parseStrAux t (c2 :: acc) := by
  rw [parseStrAux.eq_def]
  simp [h]

theorem parseStrAux_other {c : Char} (t acc : List Char) (h1 : c ≠ '"')
    (h2 : c ≠ '\\') : parseStrAux (c :: t) acc = parseStrAux t (c :: acc) := by
  rw [parseStrAux.eq_def]
  simp [h1, h2]

theorem parseStrAux_print :
    ∀ (cs acc rest : List Char),
      parseStrAux (cs.flatMap escChar ++ '"' :: rest) acc =
        some (String.mk (acc.reverse ++ cs), rest) := by
  intro cs
  induction cs with
  | nil =>
    intro acc rest
    simp [parseStrAux_quote]
  | cons c cs ih =>
    intro acc rest
    have assemble : parseStrAux (cs.flatMap escChar ++ '"' :: rest) (c :: acc) =
        some (String.mk (acc.reverse ++ c :: cs), rest) := by
      rw [ih (c :: acc) rest]
      simp
    by_cases h1 : c = '\\'
    · subst h1
      have he : escChar '\\' = ['\\', '\\'] := by decide
      simp only [List.flatMap_cons, he, List.cons_append, List.append_assoc]
      rw [parseStrAux_esc _ _ (show unescChar '\\' = some '\\' by decide)]
      exact assemble
    · by_cases h2 : c = '"'
      · subst h2
        have he : escChar '"' = ['\\', '"'] := by decide
        simp only [List.flatMap_cons, he, List.cons_append, List.append_assoc]
        rw [parseStrAux_esc _ _ (show unescChar '"' = some '"' by decide)]
        exact assemble
      · by_cases h3 : c = '\n'
        · subst h3
          have he : escChar '\n' = ['\\', 'n'] := by decide
          simp only [List.flatMap_cons, he, List.cons_append, List.append_assoc]
          rw [parseStrAux_esc _ _ (show unescChar 'n' = some '\n' by decide)]
          exact assemble
        · by_cases h4 : c = '\t'
          · subst h4
            have he : escChar '\t' = ['\\', 't'] := by decide
            simp only [List.flatMap_cons, he, List.cons_append,
              List.append_assoc]
            rw [parseStrAux_esc _ _ (show unescChar 't' = some '\t' by decide)]
            exact assemble
          · by_cases h5 : c = '\r'
            · subst h5
              have he : escChar '\r' = ['\\', 'r'] := by decide
              simp only [List.flatMap_cons, he, List.cons_append,
                List.append_assoc]
              rw [parseStrAux_esc _ _
                (show unescChar 'r' = some '\r' by decide)]
              exact assemble
            · have he : escChar c = [c] := by
                simp only [escChar, if_neg h1, if_neg h2, if_neg h3, if_neg h4,
                  if_neg h5]
              simp only [List.flatMap_cons, he, List.singleton_append,
                List.cons_append, List.append_assoc]
              rw [parseStrAux_other _ _ h2 h1]
              exact assemble

/-! ## Printed forms: heads and lengths -/

theorem printStr_length (s : String) :
    (printStr s).length = (s.toList.flatMap escChar).length + 2 := by
  simp [printStr]

theorem printVal_head (v : JVal) :
    ∃ c t, printVal v = c :: t ∧ isWsChar c = false ∧ c ≠ ']' := by
  match v with
  | .jnull => exact ⟨'n', _, rfl, by decide, by decide⟩
  | .jbool true => exact ⟨'t', _, rfl, by decide, by decide⟩
  | .jbool false => exact ⟨'f', _, rfl, by decide, by decide⟩
  | .jstr s => exact ⟨'"', _, rfl, by decide, by decide⟩
  | .jarr .nil => exact ⟨'[', _, rfl, by decide, by decide⟩
  | .jarr (.cons x xs) => exact ⟨'[', _, rfl, by decide, by decide⟩
  | .jobj .nil => exact ⟨'{', _, rfl, by decide, by decide⟩
  | .jobj (.cons k v2 ms) => exact ⟨'{', _, rfl, by decide, by decide⟩
  | .jnum i =>
    show ∃ c t, printInt i = c :: t ∧ _
    rw [printInt]
    by_cases hi : i < 0
    · rw [if_pos hi]
      exact ⟨'-', _, rfl, by decide, by decide⟩
    · rw [if_neg hi]
      match hd : natToDigits i.natAbs with
      | [] => exact absurd hd (natToDigits_ne_nil _)
      | c :: t =>
        have hc : c.isDigit = true := by
          have := natToDigits_all_digits i.natAbs
          rw [hd] at this
          exact this c (List.mem_cons_self c t)
        exact ⟨c, t, rfl, isWsChar_false_of_isDigit hc,
          ne_of_isDigit hc (by decide)⟩

theorem printVal_length_pos (v : JVal) : 1 ≤ (printVal v).length := by
  obtain ⟨c, t, h, -, -⟩ := printVal_head v
  simp [h]

theorem skipWs_printVal (v : JVal) (rest : List Char) :
    skipWs (printVal v ++ rest) = printVal v ++ rest := by
  obtain ⟨c, t, h, hws, -⟩ := printVal_head v
  rw [h, List.cons_append, skipWs_cons_not _ hws]

theorem headNot_digit_elems (xs : JElems) (rest : List Char) :
    headNot Char.isDigit (printElemsRest xs ++ ']' :: rest) := by
  match xs with
  | .nil =>
    intro c hc
    simp only [printElemsRest, List.nil_append, List.head?_cons,
      Option.some.injEq] at hc
    subst hc
    decide
  | .cons x xs2 =>
    intro c hc
    simp only [printElemsRest, List.cons_append, List.head?_cons,
      Option.some.injEq] at hc
    subst hc
    decide

theorem headNot_digit_members (ms : JMembers) (rest : List Char) :
    headNot Char.isDigit (printMembersRest ms ++ '}' :: rest) := by
  match ms with
  | .nil =>
    intro c hc
    simp only [printMembersRest, List.nil_append, List.head?_cons,
      Option.some.injEq] at hc
    subst hc
    decide
  | .cons k v ms2 =>
    intro c hc
    simp only [printMembersRest, List.cons_append, List.head?_cons,
      Option.some.injEq] at hc
    subst hc
    decide

theorem skipWs_elems (xs : JElems) (rest : List Char) :
    skipWs (printElemsRest xs ++ ']' :: rest) = printElemsRest xs ++ ']' :: rest := by
  match xs with
  | .nil => simp [printElemsRest, skipWs_cons_not _ (by decide : isWsChar ']' = false)]
  | .cons x xs2 =>
    simp only [printElemsRest, List.cons_append]
    rw [skipWs_cons_not _ (by decide : isWsChar ',' = false)]

theorem skipWs_members (ms : JMembers) (rest : List Char) :
    skipWs (printMembersRest ms ++ '}' :: rest) =
      printMembersRest ms ++ '}' :: rest := by
  match ms with
  | .nil => simp [printMembersRest, skipWs_cons_not _ (by decide : isWsChar '}' = false)]
  | .cons k v ms2 =>
    simp only [printMembersRest, List.cons_append]
    rw [skipWs_cons_not _ (by decide : isWsChar ',' = false)]

/-! ## Parser branch lemmas -/

theorem parseVal_null (fuel : Nat) (rest : List Char) :
    parseVal (fuel + 1) ('n' :: 'u' :: 'l' :: 'l' :: rest) =
      some (.jnull, rest) := by
  rw [parseVal.eq_def]
  simp

theorem parseVal_true (fuel : Nat) (rest : List Char) :
    parseVal (fuel + 1) ('t' :: 'r' :: 'u' :: 'e' :: rest) =
      some (.jbool true, rest) := by
  rw [parseVal.eq_def]
  simp

theorem parseVal_false (fuel : Nat) (rest : List Char) :
    parseVal (fuel + 1) ('f' :: 'a' :: 'l' :: 's' :: 'e' :: rest) =
      some (.jbool false, rest) := by
  rw [parseVal.eq_def]
  simp

theorem parseVal_quote {s : String} {rest rest2 : List Char} (fuel : Nat)
    (h : parseStrAux rest [] = some (s, rest2)) :
    parseVal (fuel + 1) ('"' :: rest) = some (.jstr s, rest2) := by
  rw [parseVal.eq_def]
  simp [h]

theorem parseVal_arr_nil {rest rest1 : List Char} (fuel : Nat)
    (h : skipWs rest = ']' :: rest1) :
    parseVal (fuel + 1) ('[' :: rest) = some (.jarr .nil, rest1) := by
  rw [parseVal.eq_def]
  simp [h]

theorem parseVal_arr_cons {rest rest1 rest2 rest3 : List Char} {c1 : Char}
    {v : JVal} {vs : JElems} (fuel : Nat)
    (h : skipWs rest = c1 :: rest1) (hc : c1 ≠ ']')
    (hv : parseVal fuel (c1 :: rest1) = some (v, rest2))
    (hvs : parseElemsRest fuel (skipWs rest2) = some (vs, rest3)) :
    parseVal (fuel + 1) ('[' :: rest) = some (.jarr (.cons v vs), rest3) := by
  rw [parseVal.eq_def]
  simp [h, hc, hv, hvs]

theorem parseVal_obj_nil {rest rest1 : List Char} (fuel : Nat)
    (h : skipWs rest = '}' :: rest1) :
    parseVal (fuel + 1) ('{' :: rest) = some (.jobj .nil, rest1) := by
  rw [parseVal.eq_def]
  simp [h]

theorem parseVal_obj_cons {rest rest1 rest2 rest3 : List Char} {c1 : Char}
    {k : String} {v : JVal} {ms : JMembers} (fuel : Nat)
    (h : skipWs rest = c1 :: rest1) (hc : c1 ≠ '}')
    (hm : parseMember fuel (c1 :: rest1) = some (k, v, rest2))
    (hms : parseMembersRest fuel (skipWs rest2) = some (ms, rest3)) :
    parseVal (fuel + 1) ('{' :: rest) = some (.jobj (.cons k v ms), rest3) := by
  rw [parseVal.eq_def]
  simp [h, hc, hm, hms]

theorem parseVal_neg {rest rest2 : List Char} {n : Nat} (fuel : Nat)
    (h : parseDigits rest = some (n, rest2)) :
    parseVal (fuel + 1) ('-' :: rest) = some (.jnum (-(n : Int)), rest2) := by
  rw [parseVal.eq_def]
  simp [h]

theorem parseVal_digit {rest rest2 : List Char} {c : Char} {n : Nat} (fuel : Nat)
    (hd : c.isDigit = true) (h : parseDigits (c :: rest) = some (n, rest2)) :
    parseVal (fuel + 1) (c :: rest) = some (.jnum (n : Int), rest2) := by
  have h1 : c ≠ 'n' := ne_of_isDigit hd (by decide)
  have h2 : c ≠ 't' := ne_of_isDigit hd (by decide)
  have h3 : c ≠ 'f' := ne_of_isDigit hd (by decide)
  have h4 : c ≠ '"' := ne_of_isDigit hd (by decide)
  have h5 : c ≠ '[' := ne_of_isDigit hd (by decide)
  have h6 : c ≠ '{' := ne_of_isDigit hd (by decide)
  have h7 : c ≠ '-' := ne_of_isDigit hd (by decide)
  rw [parseVal.eq_def]
  simp [h1, h2, h3, h4, h5, h6, h7, hd, h]

theorem parseMember_step {rest rest2 rest3 rest4 : List Char} {k : String}
    {v : JVal} (fuel : Nat)
    (hk : parseStrAux rest [] = some (k, rest2))
    (hc : skipWs rest2 = ':' :: rest3)
    (hv : parseVal fuel (skipWs rest3) = some (v, rest4)) :
    parseMember (fuel + 1) ('"' :: rest) = some (k, v, rest4) := by
  rw [parseMember.eq_def]
  simp [hk, hc, hv]

theorem parseElemsRest_close (fuel : Nat) (rest : List Char) :
    parseElemsRest (fuel + 1) (']' :: rest) = some (.nil, rest) := by
  rw [parseElemsRest.eq_def]
  simp

theorem parseElemsRest_comma {rest rest2 rest3 : List Char} {v : JVal}
    {vs : JElems} (fuel : Nat)
    (hv : parseVal fuel (skipWs rest) = some (v, rest2))
    (hvs : parseElemsRest fuel (skipWs rest2) = some (vs, rest3)) :
    parseElemsRest (fuel + 1) (',' :: rest) = some (.cons v vs, rest3) := by
  rw [parseElemsRest.eq_def]
  simp [hv, hvs]

theorem parseMembersRest_close (fuel : Nat) (rest : List Char) :
    parseMembersRest (fuel + 1) ('}' :: rest) = some (.nil, rest) := by
  rw [parseMembersRest.eq_def]
  simp

theorem parseMembersRest_comma {rest rest2 rest3 : List Char} {k : String}
    {v : JVal} {ms : JMembers} (fuel : Nat)
    (hm : parseMember fuel (skipWs rest) = some (k, v, rest2))
    (hms : parseMembersRest fuel (skipWs rest2) = some (ms, rest3)) :
    parseMembersRest (fuel + 1) (',' :: rest) = some (.cons k v ms, rest3) := by
  rw [parseMembersRest.eq_def]
  simp [hm, hms]

/-! ## The print/parse round trip -/

theorem parse_print_all : ∀ fuel : Nat,
    (∀ (v : JVal) (rest : List Char), (printVal v).length ≤ fuel →
      headNot Char.isDigit rest →
      parseVal fuel (printVal v ++ rest) = some (v, rest))
    ∧ (∀ (k : String) (v : JVal) (rest : List Char),
      (printStr k).length + 2 + (printVal v).length ≤ fuel + 1 →
      headNot Char.isDigit rest →
      parseMember fuel (printStr k ++ ':' :: ' ' :: (printVal v ++ rest)) =
        some (k, v, rest))
    ∧ (∀ (xs : JElems) (rest : List Char), (printElemsRest xs).length + 1 ≤ fuel →
      parseElemsRest fuel (printElemsRest xs ++ ']' :: rest) = some (xs, rest))
    ∧ (∀ (ms : JMembers) (rest : List Char),
      (printMembersRest ms).length + 1 ≤ fuel →
      parseMembersRest fuel (printMembersRest ms ++ '}' :: rest) =
        some (ms, rest)) := by
  intro fuel
  induction fuel with
  | zero =>
    refine ⟨?_, ?_, ?_, ?_⟩
    · intro v rest hlen _
      have := printVal_length_pos v
      omega
    · intro k v rest hlen _
      have h1 := printVal_length_pos v
      have h2 := printStr_length k
      omega
    · intro xs rest hlen
      omega
    · intro ms rest hlen
      omega
  | succ fuel ih =>
    obtain ⟨ihV, ihM, ihE, ihMs⟩ := ih
    have partV : ∀ (v : JVal) (rest : List Char),
        (printVal v).length ≤ fuel + 1 → headNot Char.isDigit rest →
        parseVal (fuel + 1) (printVal v ++ rest) = some (v, rest) := by
      intro v rest hlen hrest
      match v with
      | .jnull =>
        show parseVal (fuel + 1) (['n', 'u', 'l', 'l'] ++ rest) = _
        exact parseVal_null fuel rest
      | .jbool true =>
        show parseVal (fuel + 1) (['t', 'r', 'u', 'e'] ++ rest) = _
        exact parseVal_true fuel rest
      | .jbool false =>
        show parseVal (fuel + 1) (['f', 'a', 'l', 's', 'e'] ++ rest) = _
        exact parseVal_false fuel rest
      | .jnum i =>
        show parseVal (fuel + 1) (printInt i ++ rest) = some (.jnum i, rest)
        rw [printInt]
        by_cases hi : i < 0
        · rw [if_pos hi]
          have hnum : (-(i.natAbs : Int)) = i := by omega
          rw [List.cons_append,
            parseVal_neg fuel (parseDigits_print i.natAbs rest hrest), hnum]
        · rw [if_neg hi]
          have hnum : ((i.natAbs : Int)) = i := by omega
          match hd : natToDigits i.natAbs with
          | [] => exact absurd hd (natToDigits_ne_nil _)
          | c :: t =>
            have hc : c.isDigit = true := by
              have := natToDigits_all_digits i.natAbs
              rw [hd] at this
              exact this c (List.mem_cons_self c t)
            have hp : parseDigits (c :: (t ++ rest)) = some (i.natAbs, rest) := by
              rw [← List.cons_append, ← hd]
              exact parseDigits_print i.natAbs rest hrest
            rw [List.cons_append, parseVal_digit fuel hc hp, hnum]
      | .jstr s =>
        show parseVal (fuel + 1) (printStr s ++ rest) = some (.jstr s, rest)
        rw [printStr]
        simp only [List.cons_append, List.append_assoc, List.singleton_append,
          List.nil_append]
        exact parseVal_quote fuel
          (by simpa [stringMk_toList] using parseStrAux_print s.toList [] rest)
      | .jarr .nil =>
        show parseVal (fuel + 1) (['[', ']'] ++ rest) = _
        exact parseVal_arr_nil fuel
          (skipWs_cons_not rest (by decide : isWsChar ']' = false))
      | .jarr (.cons x xs) =>
        show parseVal (fuel + 1)
          (('[' :: printVal x ++ printElemsRest xs ++ [']']) ++ rest) = _
        have hlen2 : (printVal x).length + (printElemsRest xs).length + 2 ≤
            fuel + 1 := by
          have : (printVal (.jarr (.cons x xs))).length =
              (printVal x).length + (printElemsRest xs).length + 2 := by
            show ('[' :: printVal x ++ printElemsRest xs ++ [']']).length = _
            simp
            try omega
          omega
        obtain ⟨cx, tx, hx, hxws, hxne⟩ := printVal_head x
        simp only [List.cons_append, List.append_assoc, List.singleton_append,
          List.nil_append]
        have hrw : printVal x ++ (printElemsRest xs ++ ']' :: rest) =
            cx :: (tx ++ (printElemsRest xs ++ ']' :: rest)) := by
          rw [hx, List.cons_append]
        have hskip2 : skipWs (printVal x ++ (printElemsRest xs ++ ']' :: rest)) =
            cx :: (tx ++ (printElemsRest xs ++ ']' :: rest)) := by
          rw [skipWs_printVal x (printElemsRest xs ++ ']' :: rest)]
          exact hrw
        have hv : parseVal fuel (cx :: (tx ++ (printElemsRest xs ++ ']' :: rest))) =
            some (x, printElemsRest xs ++ ']' :: rest) := by
          rw [← List.cons_append, ← hx]
          exact ihV x (printElemsRest xs ++ ']' :: rest) (by omega)
            (headNot_digit_elems xs rest)
        have hvs : parseElemsRest fuel (skipWs (printElemsRest xs ++ ']' :: rest)) =
            some (xs, rest) := by
          rw [skipWs_elems xs rest]
          exact ihE xs rest (by omega)
        exact parseVal_arr_cons fuel hskip2 hxne hv hvs
      | .jobj .nil =>
        show parseVal (fuel + 1) (['{', '}'] ++ rest) = _
        exact parseVal_obj_nil fuel
          (skipWs_cons_not rest (by decide : isWsChar '}' = false))
      | .jobj (.cons k v2 ms) =>
        show parseVal (fuel + 1)
          (('{' :: (printStr k ++ ':' :: ' ' :: printVal v2) ++
            printMembersRest ms ++ ['}']) ++ rest) = _
        have hlen2 : (printStr k).length + 2 + (printVal v2).length +
            (printMembersRest ms).length + 2 ≤ fuel + 1 := by
          have : (printVal (.jobj (.cons k v2 ms))).length =
              (printStr k).length + 2 + (printVal v2).length +
              (printMembersRest ms).length + 2 := by
            show ('{' :: (printStr k ++ ':' :: ' ' :: printVal v2) ++
              printMembersRest ms ++ ['}']).length = _
            simp
            try omega
          omega
        simp only [List.cons_append, List.append_assoc, List.singleton_append,
          List.nil_append]
        have hform : printStr k ++ ':' :: ' ' :: (printVal v2 ++
            (printMembersRest ms ++ '}' :: rest)) =
            '"' :: (k.toList.flatMap escChar ++
              '"' :: ':' :: ' ' :: (printVal v2 ++
                (printMembersRest ms ++ '}' :: rest))) := by
          rw [printStr]
          simp only [List.cons_append, List.append_assoc,
            List.singleton_append, List.nil_append]
        have hskipO : skipWs (printStr k ++ ':' :: ' ' :: (printVal v2 ++
            (printMembersRest ms ++ '}' :: rest))) =
            '"' :: (k.toList.flatMap escChar ++
              '"' :: ':' :: ' ' :: (printVal v2 ++
                (printMembersRest ms ++ '}' :: rest))) := by
          have hskip : skipWs (printStr k ++ ':' :: ' ' :: (printVal v2 ++
              (printMembersRest ms ++ '}' :: rest))) =
              printStr k ++ ':' :: ' ' :: (printVal v2 ++
              (printMembersRest ms ++ '}' :: rest)) := by
            rw [printStr]
            simp only [List.cons_append]
            exact skipWs_cons_not _ (by decide)
          rw [hskip]
          exact hform
        have hm : parseMember fuel ('"' :: (k.toList.flatMap escChar ++
            '"' :: ':' :: ' ' :: (printVal v2 ++
              (printMembersRest ms ++ '}' :: rest)))) =
            some (k, v2, printMembersRest ms ++ '}' :: rest) := by
          rw [← hform]
          exact ihM k v2 (printMembersRest ms ++ '}' :: rest) (by omega)
            (headNot_digit_members ms rest)
        have hms : parseMembersRest fuel (skipWs (printMembersRest ms ++
            '}' :: rest)) = some (ms, rest) := by
          rw [skipWs_members ms rest]
          exact ihMs ms rest (by omega)
        exact parseVal_obj_cons fuel hskipO (by decide) hm hms
    refine ⟨partV, ?_, ?_, ?_⟩
    · intro k v rest hlen hrest
      rw [printStr]
      simp only [List.cons_append, List.append_assoc, List.singleton_append,
        List.nil_append]
      have hk : parseStrAux (k.toList.flatMap escChar ++
          '"' :: ':' :: ' ' :: (printVal v ++ rest)) [] =
          some (k, ':' :: ' ' :: (printVal v ++ rest)) := by
        rw [parseStrAux_print k.toList [] (':' :: ' ' :: (printVal v ++ rest))]
        simp [stringMk_toList]
      have hcol : skipWs (':' :: ' ' :: (printVal v ++ rest)) =
          ':' :: ' ' :: (printVal v ++ rest) :=
        skipWs_cons_not _ (by decide)
      have hv2 : parseVal fuel (skipWs (' ' :: (printVal v ++ rest))) =
          some (v, rest) := by
        rw [skipWs_space, skipWs_printVal]
        have h2 := printStr_length k
        exact ihV v rest (by omega) hrest
      exact parseMember_step fuel hk hcol hv2
    · intro xs rest hlen
      match xs with
      | .nil =>
        exact parseElemsRest_close fuel rest
      | .cons x xs2 =>
        show parseElemsRest (fuel + 1)
          ((',' :: ' ' :: printVal x ++ printElemsRest xs2) ++ ']' :: rest) = _
        have hlen2 : (printVal x).length + (printElemsRest xs2).length + 2 ≤
            fuel + 1 := by
          have : (printElemsRest (.cons x xs2)).length =
              (printVal x).length + (printElemsRest xs2).length + 2 := by
            show (',' :: ' ' :: printVal x ++ printElemsRest xs2).length = _
            simp
            try omega
          omega
        simp only [List.cons_append, List.append_assoc, List.nil_append]
        have hv : parseVal fuel (skipWs (' ' :: (printVal x ++
            (printElemsRest xs2 ++ ']' :: rest)))) =
            some (x, printElemsRest xs2 ++ ']' :: rest) := by
          rw [skipWs_space, skipWs_printVal]
          exact ihV x (printElemsRest xs2 ++ ']' :: rest) (by omega)
            (headNot_digit_elems xs2 rest)
        have hvs : parseElemsRest fuel (skipWs (printElemsRest xs2 ++
            ']' :: rest)) = some (xs2, rest) := by
          rw [skipWs_elems xs2 rest]
          exact ihE xs2 rest (by omega)
        exact parseElemsRest_comma fuel hv hvs
    · intro ms rest hlen
      match ms with
      | .nil =>
        exact parseMembersRest_close fuel rest
      | .cons k v ms2 =>
        show parseMembersRest (fuel + 1)
          ((',' :: ' ' :: (printStr k ++ ':' :: ' ' :: printVal v) ++
            printMembersRest ms2) ++ '}' :: rest) = _
        have hlen2 : (printStr k).length + 2 + (printVal v).length +
            (printMembersRest ms2).length + 2 ≤ fuel + 1 := by
          have : (printMembersRest (.cons k v ms2)).length =
              (printStr k).length + 2 + (printVal v).length +
              (printMembersRest ms2).length + 2 := by
            show (',' :: ' ' :: (printStr k ++ ':' :: ' ' :: printVal v) ++
              printMembersRest ms2).length = _
            simp
            try omega
          omega
        simp only [List.cons_append, List.append_assoc, List.nil_append]
        have hsk : skipWs (' ' :: (printStr k ++ ':' :: ' ' ::
            (printVal v ++ (printMembersRest ms2 ++ '}' :: rest)))) =
            printStr k ++ ':' :: ' ' ::
            (printVal v ++ (printMembersRest ms2 ++ '}' :: rest)) := by
          rw [skipWs_space, printStr]
          simp only [List.cons_append]
          exact skipWs_cons_not _ (by decide)
        have hm : parseMember fuel (skipWs (' ' :: (printStr k ++ ':' :: ' ' ::
            (printVal v ++ (printMembersRest ms2 ++ '}' :: rest))))) =
            some (k, v, printMembersRest ms2 ++ '}' :: rest) := by
          rw [hsk]
          exact ihM k v (printMembersRest ms2 ++ '}' :: rest) (by omega)
            (headNot_digit_members ms2 rest)
        have hms2 : parseMembersRest fuel (skipWs (printMembersRest ms2 ++
            '}' :: rest)) = some (ms2, rest) := by
          rw [skipWs_members ms2 rest]
          exact ihMs ms2 rest (by omega)
        exact parseMembersRest_comma fuel hm hms2

theorem toList_stringMk (l : List Char) : (String.mk l).toList = l := rfl

theorem loads_dumps (v : JVal) : loads (dumps v) = some v := by
  rw [loads, dumps, toList_stringMk]
  have hskip : skipWs (printVal v) = printVal v := by
    obtain ⟨c, t, h, hws, -⟩ := printVal_head v
    rw [h]
    exact skipWs_cons_not t hws
  rw [hskip]
  have hparse : parseVal ((printVal v).length + 1) (printVal v ++ []) =
      some (v, []) :=
    (parse_print_all ((printVal v).length + 1)).1 v []
      (by omega) (fun c hc => by cases hc)
  rw [List.append_nil] at hparse
  rw [hparse]
  rfl

/-- Saving and re-opening the cache reconstructs the same store. -/
theorem open_cache_save_cache (ms : JMembers) :
    open_cache (save_cache ms) = ms := by
  rw [save_cache, open_cache, loads_dumps]

/-! ## Store lemmas -/

theorem lookupStore_insertStore_self :
    ∀ (ms : JMembers) (k : String) (v : JVal),
      lookupStore (insertStore ms k v) k = some v
  | .nil, k, v => by simp [insertStore, lookupStore]
  | .cons k2 v2 rest, k, v => by
    by_cases h : k2 = k
    · subst h
      simp [insertStore, lookupStore]
    · simp [insertStore, lookupStore, h,
        lookupStore_insertStore_self rest k v]

theorem lookupStore_insertStore_ne :
    ∀ (ms : JMembers) (k k2 : String) (v : JVal), k ≠ k2 →
      lookupStore (insertStore ms k v) k2 = lookupStore ms k2
  | .nil, k, k2, v, h => by simp [insertStore, lookupStore, h]
  | .cons k3 v3 rest, k, k2, v, h => by
    by_cases h3 : k3 = k
    · subst h3
      simp [insertStore, lookupStore, h]
    · simp [insertStore, lookupStore, h3,
        lookupStore_insertStore_ne rest k k2 v h]

/-! ## Claim theorems: the cache layer -/

/-- C1: calling `make_request_with_cache` twice with the same key invokes
the underlying fetch exactly once: the first call on a miss fetches
(performed-request flag `true`), stores the result under the key and
persists the store; the second call returns a value equal to the first
call's result with the flag `false` (no network fetch). -/
theorem make_request_with_cache_idempotent (net : Net) (file : FileState)
    (url t : String)
    (hmiss : lookupStore (open_cache file) url = none)
    (hnet : net url = .ok t) :
    make_request_with_cache net file url =
      (.ok (.jstr t),
       save_cache (insertStore (open_cache file) url (.jstr t)), true)
    ∧ lookupStore (open_cache (save_cache (insertStore (open_cache file) url
        (.jstr t)))) url = some (.jstr t)
    ∧ make_request_with_cache net
        (save_cache (insertStore (open_cache file) url (.jstr t))) url =
      (.ok (.jstr t),
       save_cache (insertStore (open_cache file) url (.jstr t)), false) := by
  have hstored : lookupStore (open_cache (save_cache (insertStore
      (open_cache file) url (.jstr t)))) url = some (.jstr t) := by
    rw [open_cache_save_cache]
    exact lookupStore_insertStore_self (open_cache file) url (.jstr t)
  refine ⟨?_, hstored, ?_⟩
  · unfold make_request_with_cache
    rw [hmiss, hnet]
  · unfold make_request_with_cache
    rw [hstored]

theorem make_request_with_cache_idempotent_witness :
    lookupStore (open_cache .absent) "u" = none
    ∧ okNet (fun _ => "page") "u" = .ok "page"
    ∧ (make_request_with_cache (okNet (fun _ => "page")) .absent "u" =
        (.ok (.jstr "page"),
         save_cache (insertStore (open_cache .absent) "u" (.jstr "page")), true)
      ∧ lookupStore (open_cache (save_cache (insertStore (open_cache .absent)
          "u" (.jstr "page")))) "u" = some (.jstr "page")
      ∧ make_request_with_cache (okNet (fun _ => "page"))
          (save_cache (insertStore (open_cache .absent) "u" (.jstr "page")))
          "u" =
        (.ok (.jstr "page"),
         save_cache (insertStore (open_cache .absent) "u" (.jstr "page")),
         false)) :=
  ⟨rfl, rfl,
   make_request_with_cache_idempotent (okNet (fun _ => "page")) .absent
     "u" "page" rfl rfl⟩

/-- C4: `open_cache` is total — it returns the empty store for an absent
or unreadable file and for unparsable content (non-JSON or truncated),
and returns the parsed mapping exactly when the content parses as a JSON
object. -/
theorem open_cache_resilient :
    open_cache .absent = .nil
    ∧ open_cache (.content "not json") = .nil
    ∧ open_cache (.content "\x7b\x22a\x22: tru") = .nil
    ∧ (∀ (s : String) (ms : JMembers), loads s = some (.jobj ms) →
        open_cache (.content s) = ms)
    ∧ (∀ s : String, (∀ ms : JMembers, loads s ≠ some (.jobj ms)) →
        open_cache (.content s) = .nil) := by
  refine ⟨rfl, rfl, rfl, ?_, ?_⟩
  · intro s ms h
    rw [open_cache, h]
  · intro s h
    rw [open_cache]
    match hl : loads s with
    | none => rfl
    | some .jnull => rfl
    | some (.jbool b) => rfl
    | some (.jnum i) => rfl
    | some (.jstr t) => rfl
    | some (.jarr xs) => rfl
    | some (.jobj ms) => exact absurd hl (h ms)

theorem open_cache_resilient_witness :
    loads "\x7b\x7d" = some (.jobj .nil)
    ∧ open_cache (.content "\x7b\x7d") = .nil
    ∧ (∀ ms : JMembers, loads "xyz" ≠ some (.jobj ms))
    ∧ open_cache (.content "xyz") = .nil :=
  ⟨rfl, open_cache_resilient.2.2.2.1 "\x7b\x7d" .nil rfl,
   fun ms h => Option.noConfusion ((show loads "xyz" = none from rfl) ▸ h),
   open_cache_resilient.2.2.2.2 "xyz"
     (fun ms h => Option.noConfusion ((show loads "xyz" = none from rfl) ▸ h))⟩

/-- C5: for every non-empty store with distinct keys (a Python dict),
`save_cache` followed by `open_cache` reconstructs an equal store. -/
theorem save_cache_open_cache_roundtrip (ms : JMembers) (hne : ms ≠ .nil)
    (hdk : keysDistinct ms) : open_cache (save_cache ms) = ms :=
  open_cache_save_cache ms

theorem save_cache_open_cache_roundtrip_witness :
    (JMembers.cons "a" (.jnum 1) .nil ≠ .nil)
    ∧ keysDistinct (.cons "a" (.jnum 1) .nil)
    ∧ open_cache (save_cache (.cons "a" (.jnum 1) .nil)) =
        .cons "a" (.jnum 1) .nil :=
  ⟨fun h => JMembers.noConfusion h, ⟨rfl, trivial⟩,
   save_cache_open_cache_roundtrip (.cons "a" (.jnum 1) .nil)
     (fun h => JMembers.noConfusion h) ⟨rfl, trivial⟩⟩

/-- C6: cache writes are atomic with respect to failure: when the fetch,
the states-dict lookup, or the API call raises, each cached operation
leaves the cache file exactly as it was (so no entry is stored). -/
theorem cache_write_atomicity :
    (∀ (net : Net) (file : FileState) (url : String) (e : Unit)
        (f2 : FileState) (b : Bool),
      make_request_with_cache net file url = (.error e, f2, b) → f2 = file)
    ∧ (∀ (sd : List (String × String)) (file : FileState) (state : String)
        (e : Unit) (f2 : FileState),
      get_url_with_cache sd file state = (.error e, f2) → f2 = file)
    ∧ (∀ (api : Api) (file : FileState) (site : NationalSite) (e : Unit)
        (f2 : FileState) (b : Bool),
      get_nearby_with_cache api file site = (.error e, f2, b) → f2 = file) := by
  refine ⟨?_, ?_, ?_⟩
  · intro net file url e f2 b h
    unfold make_request_with_cache at h
    match hl : lookupStore (open_cache file) url with
    | some v =>
      rw [hl] at h
      simp at h
    | none =>
      rw [hl] at h
      match hn : net url with
      | .ok t =>
        rw [hn] at h
        simp at h
      | .error e2 =>
        rw [hn] at h
        simp only [Prod.mk.injEq] at h
        exact h.2.1.symm
  · intro sd file state e f2 h
    unfold get_url_with_cache at h
    match hl : lookupStore (open_cache file) (pyCapitalize state) with
    | some v =>
      rw [hl] at h
      simp at h
    | none =>
      rw [hl] at h
      match ha : lookupAssoc sd state with
      | some url =>
        rw [ha] at h
        simp at h
      | none =>
        rw [ha] at h
        simp only [Prod.mk.injEq] at h
        exact h.2.symm
  · intro api file site e f2 b h
    unfold get_nearby_with_cache at h
    match hl : lookupStore (open_cache file) site.name with
    | some v =>
      rw [hl] at h
      simp at h
    | none =>
      rw [hl] at h
      match ha : api site with
      | .ok j =>
        rw [ha] at h
        simp at h
      | .error e2 =>
        rw [ha] at h
        simp only [Prod.mk.injEq] at h
        exact h.2.1.symm

theorem cache_write_atomicity_witness :
    make_request_with_cache (fun _ => .error ()) .absent "u" =
      (.error (), .absent, true)
    ∧ get_url_with_cache [("michigan", "https://x/state/mi")] .absent
        "Atlantis" = (.error (), .absent)
    ∧ FileState.absent = FileState.absent :=
  ⟨rfl, rfl,
   cache_write_atomicity.2.1 [("michigan", "https://x/state/mi")] .absent
     "Atlantis" () .absent rfl⟩

/-- C7: from a cache file holding the empty object, resolving
`"michigan"` against a catalog index mapping `"michigan"` to `u` returns
`u` and leaves the cache holding exactly the entry `"Michigan" ↦ u`. -/
theorem get_url_with_cache_michigan_scenario (u : String) :
    get_url_with_cache [("michigan", u)] (.content "\x7b\x7d") "michigan" =
      (.ok (.jstr u), save_cache (.cons "Michigan" (.jstr u) .nil))
    ∧ open_cache (get_url_with_cache [("michigan", u)]
        (.content "\x7b\x7d") "michigan").2 =
      .cons "Michigan" (.jstr u) .nil := by
  have h1 : get_url_with_cache [("michigan", u)] (.content "\x7b\x7d")
      "michigan" =
      (.ok (.jstr u), save_cache (.cons "Michigan" (.jstr u) .nil)) := rfl
  refine ⟨h1, ?_⟩
  rw [h1]
  exact open_cache_save_cache (.cons "Michigan" (.jstr u) .nil)

/-- C8: `get_nearby_with_cache` keys the cache by the site's name
verbatim: on a hit it returns the cached value with no API call; on a
miss it calls the API, stores the decoded response under the name, and
persists the store. -/
theorem get_nearby_with_cache_spec (api : Api) (file : FileState)
    (site : NationalSite) :
    (∀ v, lookupStore (open_cache file) site.name = some v →
      get_nearby_with_cache api file site = (.ok v, file, false))
    ∧ (∀ j, lookupStore (open_cache file) site.name = none →
      api site = .ok j →
      get_nearby_with_cache api file site =
        (.ok j, save_cache (insertStore (open_cache file) site.name j), true)
      ∧ lookupStore (open_cache (save_cache (insertStore (open_cache file)
          site.name j))) site.name = some j) := by
  constructor
  · intro v h
    unfold get_nearby_with_cache
    rw [h]
  · intro j hmiss hapi
    constructor
    · unfold get_nearby_with_cache
      rw [hmiss, hapi]
    · rw [open_cache_save_cache]
      exact lookupStore_insertStore_self (open_cache file) site.name j

theorem get_nearby_with_cache_spec_witness :
    lookupStore (open_cache (.content
        "\x7b\x22Yellowstone\x22: \x7b\x22searchResults\x22: []\x7d\x7d"))
        (NationalSite.mk "" "Yellowstone" "" "" "").name =
      some (.jobj (.cons "searchResults" (.jarr .nil) .nil))
    ∧ get_nearby_with_cache (fun _ => .error ())
        (.content "\x7b\x22Yellowstone\x22: \x7b\x22searchResults\x22: []\x7d\x7d")
        (NationalSite.mk "" "Yellowstone" "" "" "") =
      (.ok (.jobj (.cons "searchResults" (.jarr .nil) .nil)),
       .content "\x7b\x22Yellowstone\x22: \x7b\x22searchResults\x22: []\x7d\x7d",
       false) :=
  ⟨rfl,
   (get_nearby_with_cache_spec (fun _ => .error ())
     (.content "\x7b\x22Yellowstone\x22: \x7b\x22searchResults\x22: []\x7d\x7d")
     (NationalSite.mk "" "Yellowstone" "" "" "")).1
     (.jobj (.cons "searchResults" (.jarr .nil) .nil)) rfl⟩

/-- C10: on a cache hit `get_url_with_cache` never consults the catalog
index: whenever the capitalized state name is already a cache key, the
call returns the cached value with the file unchanged, for every states
dictionary — including one the state is absent from. -/
theorem get_url_with_cache_hit_ignores_catalog (sd : List (String × String))
    (file : FileState) (state : String) (v : JVal)
    (h : lookupStore (open_cache file) (pyCapitalize state) = some v) :
    get_url_with_cache sd file state = (.ok v, file) := by
  unfold get_url_with_cache
  rw [h]

theorem get_url_with_cache_hit_ignores_catalog_witness :
    lookupStore (open_cache (.content "\x7b\x22Michigan\x22: \x22mi\x22\x7d"))
        (pyCapitalize "michigan") = some (.jstr "mi")
    ∧ get_url_with_cache [] (.content "\x7b\x22Michigan\x22: \x22mi\x22\x7d")
        "michigan" =
      (.ok (.jstr "mi"), .content "\x7b\x22Michigan\x22: \x22mi\x22\x7d") :=
  ⟨rfl,
   get_url_with_cache_hit_ignores_catalog []
     (.content "\x7b\x22Michigan\x22: \x22mi\x22\x7d") "michigan"
     (.jstr "mi") rfl⟩

/-- C3 (failing-input evaluation): on a cache miss `get_url_with_cache`
indexes the states dictionary with the state name verbatim, not
lower-cased: for the mixed-case `"Michigan"` against a catalog index
holding only `"michigan"`, the lookup raises a `KeyError` even though
the lower-cased name is present, and the cache file is unchanged. -/
theorem get_url_with_cache_mixed_case_keyerror :
    get_url_with_cache [("michigan", "https://x/state/mi")] .absent
      "Michigan" = (.error (), .absent)
    ∧ "Michigan".toList.map Char.toLower = "michigan".toList := by
  exact ⟨rfl, by decide⟩

/-! ## Pipeline lemmas -/

theorem make_request_okNet (textFn : String → String) (file : FileState)
    (url : String) (hwf : wfStrings file) :
    ∃ file2,
      make_request_with_cache (okNet textFn) file url =
        (.ok (.jstr (textAt textFn file url)), file2,
         (lookupStore (open_cache file) url).isNone)
      ∧ wfStrings file2
      ∧ (∀ u, textAt textFn file2 u = textAt textFn file u) := by
  match hl : lookupStore (open_cache file) url with
  | some v =>
    obtain ⟨t, rfl⟩ := hwf url v hl
    refine ⟨file, ?_, hwf, fun u => rfl⟩
    unfold make_request_with_cache
    rw [hl]
    unfold textAt
    rw [hl]
    rfl
  | none =>
    refine ⟨save_cache (insertStore (open_cache file) url
      (.jstr (textFn url))), ?_, ?_, ?_⟩
    · unfold make_request_with_cache
      rw [hl]
      unfold textAt
      rw [hl]
      rfl
    · intro u v hu
      rw [open_cache_save_cache] at hu
      by_cases he : url = u
      · subst he
        rw [lookupStore_insertStore_self] at hu
        exact ⟨textFn url, (Option.some.injEq _ _ ▸ hu).symm⟩
      · rw [lookupStore_insertStore_ne _ _ _ _ he] at hu
        exact hwf u v hu
    · intro u
      unfold textAt
      rw [open_cache_save_cache]
      by_cases he : url = u
      · subst he
        rw [lookupStore_insertStore_self, hl]
      · rw [lookupStore_insertStore_ne _ _ _ _ he]

theorem get_site_instance_okNet (extract : ExtractSite)
    (textFn : String → String) (file : FileState) (url : String)
    (hwf : wfStrings file) :
    ∃ file2,
      get_site_instance extract (okNet textFn) file url =
        (.ok (extract (textAt textFn file url)), file2,
         if (lookupStore (open_cache file) url).isNone then [url] else [])
      ∧ wfStrings file2
      ∧ (∀ u, textAt textFn file2 u = textAt textFn file u) := by
  obtain ⟨file2, hmake, hwf2, htext⟩ := make_request_okNet textFn file url hwf
  refine ⟨file2, ?_, hwf2, htext⟩
  unfold get_site_instance
  rw [hmake]

theorem sites_loop_okNet (extract : ExtractSite) (textFn : String → String) :
    ∀ (hrefs : List String) (file : FileState), wfStrings file →
    ∃ file2 us,
      sites_loop extract (okNet textFn) hrefs file =
        (.ok (hrefs.map (fun h => extract (textAt textFn file (baseurl ++ h)))),
         file2, us)
      ∧ wfStrings file2
      ∧ (∀ u, textAt textFn file2 u = textAt textFn file u) := by
  intro hrefs
  induction hrefs with
  | nil =>
    intro file hwf
    exact ⟨file, [], rfl, hwf, fun u => rfl⟩
  | cons href rest ih =>
    intro file hwf
    obtain ⟨file2, hsite, hwf2, htext2⟩ :=
      get_site_instance_okNet extract textFn file (baseurl ++ href) hwf
    obtain ⟨file3, us3, hloop, hwf3, htext3⟩ := ih file2 hwf2
    have hmapeq : (fun h => extract (textAt textFn file2 (baseurl ++ h))) =
        (fun h => extract (textAt textFn file (baseurl ++ h))) :=
      funext fun h => by rw [htext2]
    refine ⟨file3,
      (if (lookupStore (open_cache file) (baseurl ++ href)).isNone
        then [baseurl ++ href] else []) ++ us3, ?_, hwf3,
      fun u => by rw [htext3, htext2]⟩
    rw [sites_loop]
    simp only [hsite]
    simp only [hloop]
    simp [hmapeq]

theorem sites_loop_all_cached (extract : ExtractSite) (net : Net) :
    ∀ (hrefs : List String) (file : FileState),
      (∀ h ∈ hrefs, ∃ t,
        lookupStore (open_cache file) (baseurl ++ h) = some (.jstr t)) →
    ∃ sites, sites_loop extract net hrefs file = (.ok sites, file, []) := by
  intro hrefs
  induction hrefs with
  | nil =>
    intro file _
    exact ⟨[], rfl⟩
  | cons href rest ih =>
    intro file hcached
    obtain ⟨t, ht⟩ := hcached href (List.mem_cons_self href rest)
    obtain ⟨sites, hloop⟩ := ih file
      (fun h hm => hcached h (List.mem_cons_of_mem href hm))
    refine ⟨extract t :: sites, ?_⟩
    have hsite : get_site_instance extract net file (baseurl ++ href) =
        (.ok (extract t), file, []) := by
      unfold get_site_instance make_request_with_cache
      rw [ht]
      rfl
    rw [sites_loop]
    simp only [hsite]
    simp only [hloop]
    simp

theorem get_sites_for_state_ok (extract : ExtractSite) (parks : ExtractParks)
    (net : Net) (file : FileState) (state_url t : String)
    (hn : net state_url = .ok t) :
    get_sites_for_state extract parks net file state_url =
      ((sites_loop extract net (parks t.trim) file).1,
       (sites_loop extract net (parks t.trim) file).2.1,
       state_url :: (sites_loop extract net (parks t.trim) file).2.2) := by
  unfold get_sites_for_state
  rw [hn]

/-! ## Claim theorems: the retrieval pipeline -/

/-- C9: over a fixed state-page document served deterministically, with
every cached value a string, `get_sites_for_state` returns exactly the
park links of the document mapped in document order, and a second
invocation over the resulting cache file returns the same sequence. -/
theorem get_sites_for_state_order_deterministic (extract : ExtractSite)
    (parks : ExtractParks) (textFn : String → String) (file : FileState)
    (state_url : String) (hwf : wfStrings file) :
    ∃ file2 file3 us us2,
      get_sites_for_state extract parks (okNet textFn) file state_url =
        (.ok ((parks (textFn state_url).trim).map
          (fun h => extract (textAt textFn file (baseurl ++ h)))),
         file2, state_url :: us)
      ∧ get_sites_for_state extract parks (okNet textFn) file2 state_url =
        (.ok ((parks (textFn state_url).trim).map
          (fun h => extract (textAt textFn file (baseurl ++ h)))),
         file3, state_url :: us2) := by
  obtain ⟨file2, us, h1, hwf2, htext2⟩ :=
    sites_loop_okNet extract textFn (parks (textFn state_url).trim) file hwf
  obtain ⟨file3, us2, h2, hwf3, htext3⟩ :=
    sites_loop_okNet extract textFn (parks (textFn state_url).trim) file2 hwf2
  have hmapeq : (fun h => extract (textAt textFn file2 (baseurl ++ h))) =
      (fun h => extract (textAt textFn file (baseurl ++ h))) :=
    funext fun h => by rw [htext2]
  refine ⟨file2, file3, us, us2, ?_, ?_⟩
  · rw [get_sites_for_state_ok extract parks (okNet textFn) file state_url
      (textFn state_url) rfl, h1]
  · rw [get_sites_for_state_ok extract parks (okNet textFn) file2 state_url
      (textFn state_url) rfl, h2, hmapeq]

theorem get_sites_for_state_order_deterministic_witness :
    wfStrings .absent
    ∧ ∃ file2 file3 us us2,
      get_sites_for_state (fun _ => NationalSite.mk "" "" "" "" "")
          (fun _ => []) (okNet (fun _ => "page")) .absent "su" =
        (.ok (([] : List String).map
          (fun h => (fun _ => NationalSite.mk "" "" "" "" "")
            (textAt (fun _ => "page") .absent (baseurl ++ h)))),
         file2, "su" :: us)
      ∧ get_sites_for_state (fun _ => NationalSite.mk "" "" "" "" "")
          (fun _ => []) (okNet (fun _ => "page")) file2 "su" =
        (.ok (([] : List String).map
          (fun h => (fun _ => NationalSite.mk "" "" "" "" "")
            (textAt (fun _ => "page") .absent (baseurl ++ h)))),
         file3, "su" :: us2) :=
  ⟨fun u v h => Option.noConfusion h,
   get_sites_for_state_order_deterministic (fun _ => NationalSite.mk "" "" "" "" "")
     (fun _ => []) (fun _ => "page") .absent "su"
     (fun u v h => Option.noConfusion h)⟩

/-- C2 (counterexample): `get_sites_for_state` fetches the state page
with a direct network request even when the cache already holds that
URL's page text: against a cache file holding `"su" ↦ "page"`, the run
still performs the network fetch of `"su"`. -/
theorem get_sites_for_state_fetches_cached_page :
    (get_sites_for_state (fun _ => NationalSite.mk "" "" "" "" "")
      (fun _ => []) (okNet (fun _ => "page"))
      (.content "\x7b\x22su\x22: \x22page\x22\x7d") "su").2.2 = ["su"]
    ∧ ["su"] ≠ ([] : List String) :=
  ⟨rfl, by simp⟩

/-- C2 (amended): every remote fetch of the pipeline except the
per-state page is routed through the persistent cache: the state page is
network-fetched on every run of `get_sites_for_state`, while the index
page, the per-site pages and the API results are served from the cache
whenever their key is present, with no network or API request. -/
theorem pipeline_cache_routing_amended :
    (∀ (extract : ExtractSite) (parks : ExtractParks) (net : Net)
        (file : FileState) (state_url : String),
      ∃ us, (get_sites_for_state extract parks net file state_url).2.2 =
        state_url :: us)
    ∧ (∀ (extract : ExtractSite) (net : Net) (hrefs : List String)
        (file : FileState),
      (∀ h ∈ hrefs, ∃ t, lookupStore (open_cache file) (baseurl ++ h) =
        some (.jstr t)) →
      ∃ sites, sites_loop extract net hrefs file = (.ok sites, file, []))
    ∧ (∀ (states : ExtractStates) (net : Net) (file : FileState) (v : JVal),
      lookupStore (open_cache file) parturl = some v →
      (build_state_url_dict states net file).2.2 = [])
    ∧ (∀ (extract : ExtractSite) (net : Net) (file : FileState)
        (url : String) (v : JVal),
      lookupStore (open_cache file) url = some v →
      (get_site_instance extract net file url).2.2 = [])
    ∧ (∀ (api : Api) (file : FileState) (site : NationalSite) (v : JVal),
      lookupStore (open_cache file) site.name = some v →
      (get_nearby_with_cache api file site).2.2 = false) := by
  refine ⟨?_, sites_loop_all_cached, ?_, ?_, ?_⟩
  · intro extract parks net file state_url
    match hn : net state_url with
    | .error e =>
      refine ⟨[], ?_⟩
      unfold get_sites_for_state
      rw [hn]
    | .ok t =>
      match hp : sites_loop extract net (parks t.trim) file with
      | (res, f2, us2) =>
        refine ⟨us2, ?_⟩
        rw [get_sites_for_state_ok extract parks net file state_url t hn, hp]
  · intro states net file v h
    unfold build_state_url_dict make_request_with_cache
    rw [h]
    match v with
    | .jnull => rfl
    | .jbool b => rfl
    | .jnum i => rfl
    | .jstr t => rfl
    | .jarr xs => rfl
    | .jobj ms => rfl
  · intro extract net file url v h
    unfold get_site_instance make_request_with_cache
    rw [h]
    match v with
    | .jnull => rfl
    | .jbool b => rfl
    | .jnum i => rfl
    | .jstr t => rfl
    | .jarr xs => rfl
    | .jobj ms => rfl
  · intro api file site v h
    unfold get_nearby_with_cache
    rw [h]

theorem pipeline_cache_routing_amended_witness :
    lookupStore (open_cache (.content
      "\x7b\x22https://www.nps.gov/index.htm\x22: \x22idx\x22\x7d")) parturl =
      some (.jstr "idx")
    ∧ (build_state_url_dict (fun _ => []) (fun _ => .error ())
        (.content
          "\x7b\x22https://www.nps.gov/index.htm\x22: \x22idx\x22\x7d")).2.2 = []
    ∧ (∃ us, (get_sites_for_state (fun _ => NationalSite.mk "" "" "" "" "")
        (fun _ => []) (fun _ => .error ()) .absent "su").2.2 = "su" :: us) :=
  ⟨rfl,
   pipeline_cache_routing_amended.2.2.1 (fun _ => []) (fun _ => .error ())
     (.content "\x7b\x22https://www.nps.gov/index.htm\x22: \x22idx\x22\x7d")
     (.jstr "idx") rfl,
   pipeline_cache_routing_amended.1 (fun _ => NationalSite.mk "" "" "" "" "")
     (fun _ => []) (fun _ => .error ()) .absent "su"⟩
